import Mathlib

/-!
Verification of the event-scheduling / model-composition core of the
`ecs_disease_models` repository (a discrete-event simulation kernel).

Shallow embedding conventions:

* `Time` in the source is `ordered_float::OrderedFloat<f64>`, a totally
  ordered, hashable float wrapper.  We model it by `ℚ`, a linearly ordered
  field with decidable order, standing in for the totally ordered clock
  values (the claims under study do not involve NaN or float rounding).
* An `Event`'s payload in the source is `Box<dyn FnOnce(&mut World)>`, an
  opaque one-shot command.  We model the payload by an opaque identifier
  `Command := ℕ`; the kernel never inspects it, only moves it around.
* `std::collections::BinaryHeap<Event>` is a max-heap with an unspecified
  tie order.  We model its contents as a `List Event` (a multiset
  representation); `push` inserts, and `pop` removes a greatest element
  with respect to `Event.cmp` (the `Ord` instance from
  `src/timeline_event.rs`), which is a legal refinement of the heap's
  unspecified tie-breaking.
* Rust methods that mutate `&mut self` become functions returning the
  updated value (paired with the Rust return value where there is one).
-/

namespace EcsSim

/-- `pub type Time = OrderedFloat<f64>;` — a totally ordered clock value,
modelled by `ℚ`. -/
abbrev Time : Type := ℚ

/-- The opaque one-shot command payload `Box<dyn FnOnce(&mut World) + Send + Sync>`
of an event, modelled as an identifier. -/
abbrev Command : Type := ℕ

/-- `struct Event { time: Time, command: Box<dyn FnOnce(&mut World)> }`
from `src/timeline_event.rs`. -/
structure Event where
  time : Time
  command : Command
deriving DecidableEq

/-- `Ord::cmp` on `OrderedFloat<f64>`: the total-order comparison on `Time`
(`compareOfLessAndEq` on `ℚ`). -/
def Time.cmp (x y : Time) : Ordering :=
  if x < y then Ordering.lt else if x = y then Ordering.eq else Ordering.gt

/-- `impl PartialEq for Event { fn eq(&self, other) { self.time == other.time } }`:
two events are equal iff their times are equal, regardless of payload. -/
def Event.beq (a b : Event) : Bool :=
  a.time == b.time

/-- `impl Ord for Event { fn cmp(&self, other) { Reverse(self.time).cmp(&Reverse(other.time)) } }`:
the reversed time comparison, so that Rust's max-heap behaves as a min-heap on time. -/
def Event.cmp (a b : Event) : Ordering :=
  Time.cmp b.time a.time

/-- Model of `BinaryHeap::push`: insert the element into the multiset. -/
def heapPush (h : List Event) (e : Event) : List Event :=
  e :: h

/-- Model of `BinaryHeap::pop`: remove and return a greatest element with
respect to `Event.cmp` (`None` on the empty heap).  Rust leaves the choice
among `Ord`-equal elements unspecified; this model takes the first maximal
element in the list representation. -/
def heapPop : List Event → Option (Event × List Event)
  | [] => none
  | e :: es =>
    match heapPop es with
    | none => some (e, [])
    | some (m, rest) =>
      if Event.cmp e m = Ordering.lt then some (m, e :: rest) else some (e, es)

/-- `struct Timeline { now: Time, event_queue: BinaryHeap<Event> }`
from `src/timeline.rs`. -/
structure Timeline where
  now : Time
  event_queue : List Event
deriving DecidableEq

/-- `impl Default for Timeline`: `now = Time::default() = 0.0`, empty queue. -/
def Timeline.default : Timeline :=
  { now := 0, event_queue := [] }

/-- `pub fn set_now(&mut self, new_time: Time) -> Time` — sets `now` and
returns the new time. -/
def Timeline.set_now (t : Timeline) (new_time : Time) : Timeline × Time :=
  ({ t with now := new_time }, new_time)

/-- `pub fn push(&mut self, event: Event)` — pushes onto the heap. -/
def Timeline.push (t : Timeline) (e : Event) : Timeline :=
  { t with event_queue := heapPush t.event_queue e }

/-- `pub fn pop(&mut self) -> Option<Event>` — pops the heap and, when an
event came off, updates `now` to that event's time; returns the popped event. -/
def Timeline.pop (t : Timeline) : Option Event × Timeline :=
  match heapPop t.event_queue with
  | some (e, rest) => (some e, { now := e.time, event_queue := rest })
  | none => (none, t)

/-- Push a whole list of events in order (`for e in es { timeline.push(e) }`). -/
def Timeline.pushAll (t : Timeline) (es : List Event) : Timeline :=
  es.foldl Timeline.push t

/-- One public `Timeline` operation of a push/pop trace. -/
inductive TimelineOp where
  | push (e : Event)
  | pop
deriving DecidableEq

/-- Apply one operation to a timeline (the `pop` case keeps the mutated
timeline, discarding the returned event). -/
def TimelineOp.apply (t : Timeline) : TimelineOp → Timeline
  | TimelineOp.push e => t.push e
  | TimelineOp.pop => (t.pop).2

/-- The list of timeline states visited while running a list of operations,
starting state included. -/
def statesTrace (t : Timeline) : List TimelineOp → List Timeline
  | [] => [t]
  | op :: ops => t :: statesTrace (op.apply t) ops

/-- Causality of a trace: every `push` schedules at a time `≥` the
timeline's `now` at the moment of the push (the logical precondition of
a causal simulation; the structure itself never validates it). -/
def causalOps : Timeline → List TimelineOp → Bool
  | _, [] => true
  | t, TimelineOp.push e :: ops => decide (t.now ≤ e.time) && causalOps (t.push e) ops
  | t, TimelineOp.pop :: ops => causalOps ((t.pop).2) ops

/-- Queue consistency: every pending event is scheduled no earlier than `now`. -/
def Timeline.wf (t : Timeline) : Bool :=
  t.event_queue.all fun e => decide (t.now ≤ e.time)

/-- Fuel-indexed "pop until empty": repeatedly call `pop`, recording the
popped events, stopping on the empty queue (or when fuel runs out). -/
def drainFuel : ℕ → Timeline → List Event
  | 0, _ => []
  | n + 1, t =>
    match t.pop with
    | (some e, t') => e :: drainFuel n t'
    | (none, _) => []

/-- Repeatedly call `pop` until the queue is empty, returning the popped
events in pop order.  Fuel `= event_queue.length` suffices because each
successful pop removes exactly one pending event (`heapPop_spec`). -/
def Timeline.drain (t : Timeline) : List Event :=
  drainFuel t.event_queue.length t

/-- `enum ExecutionPhase { First, Normal, Last }` from `src/model.rs`. -/
inductive ExecutionPhase where
  | First
  | Normal
  | Last
deriving DecidableEq

/-- `enum ModelControl { Running, Paused, Aborted, Finished }` from `src/model.rs`. -/
inductive ModelControl where
  | Running
  | Paused
  | Aborted
  | Finished
deriving DecidableEq

/-- The slice of the `World` that the `Timeline` module's system
`run_timeline_event` touches: the `Timeline` resource, the `ModelControl`
resource, and the substrate's deferred-command queue (`Commands`), onto
which closures are pushed to run after the current phase's borrows end. -/
structure DrainWorld where
  timeline : Timeline
  model_control : ModelControl
  commands : List Command
deriving DecidableEq

/-- `fn run_timeline_event(timeline, model_control, commands)` from
`src/timeline.rs`: pop the timeline; if an event came off, queue its
command on the deferred-command queue; otherwise set `ModelControl::Aborted`. -/
def run_timeline_event (w : DrainWorld) : DrainWorld :=
  match (w.timeline).pop with
  | (some e, t') => { w with timeline := t', commands := w.commands ++ [e.command] }
  | (none, t') => { w with timeline := t', model_control := ModelControl.Aborted }

/-- `Model::run` from `src/model.rs`, fuel-bounded.  One iteration runs the
full phase-ordered round (`self.schedule.run`, abstracted as `step`), then
reads the `ModelControl` resource (abstracted as `ctrl`): `Paused`,
`Aborted` or `Finished` break out of the loop, `Running` continues.
Returns `none` when the fuel is exhausted with the loop still running,
otherwise `some` of the final state and the number of rounds executed. -/
def modelRunLoop {σ : Type} (step : σ → σ) (ctrl : σ → ModelControl) :
    ℕ → σ → Option (σ × ℕ)
  | 0, _ => none
  | n + 1, s =>
    let s' := step s
    match ctrl s' with
    | ModelControl.Paused | ModelControl.Aborted | ModelControl.Finished => some (s', 1)
    | ModelControl.Running =>
      (modelRunLoop step ctrl n s').map fun p => (p.1, p.2 + 1)

/-- The slice of the `World` that `Timeline`'s `Module` implementation
touches: the (optional) `Timeline` resource. -/
structure WorldModel where
  timeline : Option Timeline
deriving DecidableEq

/-- A registered system, reduced to the data the kernel tracks: the
`ExecutionPhase` set it is tagged with. -/
structure SystemReg where
  phase : ExecutionPhase
deriving DecidableEq

/-- `impl Module for Timeline { fn initialize_with_world(self, world) }` from
`src/timeline.rs`: inserts a fresh `Timeline::default()` as the world's
`Timeline` resource (the receiver `self` is not used) and returns the single
system `run_timeline_event` tagged `ExecutionPhase::Normal`. -/
def Timeline.initialize_with_world (_self : Timeline) (w : WorldModel) :
    WorldModel × Option SystemReg :=
  ({ w with timeline := some Timeline.default }, some { phase := ExecutionPhase.Normal })

/-- The `std::io::ErrorKind` values distinguished by `Reporter::initialize`. -/
inductive IoErrorKind where
  | AlreadyExists
  | Other
deriving DecidableEq

/-- Modelled from the spec: the typed setup-error type `IxaError` (its
defining module `errors.rs` is not under `src/`; the spec only requires
"typed error results" carrying the I/O failure, so we model the single
variant `IoError` used by `src/report.rs`). -/
inductive IxaError where
  | IoError (kind : IoErrorKind)
deriving DecidableEq

/-- `struct ReporterConfiguration` from `src/report.rs`: filename prefix,
output directory (a path, modelled as a string) and the overwrite flag. -/
structure ReporterConfiguration where
  file_prefix : String
  output_directory : String
  overwrite : Bool
deriving DecidableEq

/-- `fn generate_filename(&self, short_name)`: join the output directory
with `file_prefix ++ short_name` and the `csv` extension. -/
def ReporterConfiguration.generate_filename :
    ReporterConfiguration → String → String
  | ⟨fp, dir, _⟩, short_name => dir ++ "/" ++ fp ++ short_name ++ ".csv"

/-- `struct Reporter` from `src/report.rs`: the report's short name and the
optional CSV writer (modelled by the path of the opened file). -/
structure Reporter where
  short_name : String
  writer : Option String
deriving DecidableEq

/-- `Reporter::initialize` from `src/report.rs`.  `fsExists` models the
ambient filesystem (`File::create_new` fails with `AlreadyExists` exactly
when the path exists; other I/O failures are outside this model).  When the
file already exists and `overwrite` is false, the typed error
`IxaError::IoError(AlreadyExists)` is returned; otherwise the writer is
installed and `Ok(())` is returned. -/
def Reporter.initialize (r : Reporter) (cfg : ReporterConfiguration)
    (fsExists : String → Bool) : Except IxaError Reporter :=
  let path := ReporterConfiguration.generate_filename cfg r.short_name
  if fsExists path then
    if cfg.overwrite then
      Except.ok { r with writer := some path }
    else
      Except.error (IxaError.IoError IoErrorKind.AlreadyExists)
  else
    Except.ok { r with writer := some path }

/-- `impl Module for Reporter { fn initialize_with_world(mut self, world) }`
from `src/report.rs`: fetch the `ReporterConfiguration` resource (inserting
the default when absent — here the caller-supplied `cfg?`), then call
`self.initialize(config).expect("Failed to initialize Reporter")`.  The
`expect` call panics on `Err`, which we model as `none`: no value of the
return type `Option<SystemConfigs>` is produced at the composition
boundary.  On success the reporter is inserted into the world and `None`
(no systems) is returned, modelled as `some` of the updated resources. -/
def Reporter.initialize_with_world (r : Reporter)
    (cfg? : Option ReporterConfiguration) (fsExists : String → Bool)
    (dfl : ReporterConfiguration) : Option (ReporterConfiguration × Reporter) :=
  let cfg := cfg?.getD dfl
  match r.initialize cfg fsExists with
  | Except.ok r' => some (cfg, r')
  | Except.error _ => none

/-! ### Lemmas about the total-order comparison -/

theorem Time.cmp_lt_iff {x y : Time} : Time.cmp x y = Ordering.lt ↔ x < y := by
  unfold Time.cmp
  split_ifs with h1 h2
  · simp [h1]
  · constructor
    · intro h
      exact absurd h (by decide)
    · intro h
      exact absurd h h1
  · constructor
    · intro h
      exact absurd h (by decide)
    · intro h
      exact absurd h h1

theorem Time.cmp_eq_iff {x y : Time} : Time.cmp x y = Ordering.eq ↔ x = y := by
  unfold Time.cmp
  split_ifs with h1 h2
  · constructor
    · intro h
      exact absurd h (by decide)
    · intro h
      exact absurd h (ne_of_lt h1)
  · simp [h2]
  · constructor
    · intro h
      exact absurd h (by decide)
    · intro h
      exact absurd h h2

theorem Event.cmp_eq_lt {a b : Event} :
    Event.cmp a b = Ordering.lt ↔ b.time < a.time := by
  unfold Event.cmp
  exact Time.cmp_lt_iff

theorem Event.cmp_ne_lt {a b : Event} :
    Event.cmp a b ≠ Ordering.lt ↔ a.time ≤ b.time := by
  constructor
  · intro h
    by_contra hn
    exact h (Event.cmp_eq_lt.mpr (not_le.mp hn))
  · intro h hlt
    exact absurd (Event.cmp_eq_lt.mp hlt) (not_lt.mpr h)

/-! ### The heap-pop specification -/

theorem heapPop_eq_none {h : List Event} : heapPop h = none ↔ h = [] := by
  cases h with
  | nil => simp [heapPop]
  | cons e es =>
    simp only [heapPop]
    cases hrec : heapPop es with
    | none => simp
    | some p =>
      obtain ⟨m, rest⟩ := p
      by_cases hc : Event.cmp e m = Ordering.lt
      · simp [hc]
      · simp [hc]

/-- Specification of the modelled `BinaryHeap::pop`: a successful pop
returns an element of the heap that is minimal in time (maximal in the
reversed `Ord`), and the remainder is the heap with exactly that occurrence
removed (multiset-wise). -/
theorem heapPop_spec : ∀ {h : List Event} {m : Event} {rest : List Event},
    heapPop h = some (m, rest) →
    h.Perm (m :: rest) ∧ ∀ x ∈ h, m.time ≤ x.time := by
  intro h
  induction h with
  | nil => intro m rest hp; simp [heapPop] at hp
  | cons e es ih =>
    intro m rest hp
    simp only [heapPop] at hp
    cases hrec : heapPop es with
    | none =>
      simp only [hrec] at hp
      have hes : es = [] := heapPop_eq_none.mp hrec
      subst hes
      simp only [Option.some.injEq, Prod.mk.injEq] at hp
      obtain ⟨hm, hr⟩ := hp
      subst hm
      subst hr
      refine ⟨List.Perm.refl _, ?_⟩
      intro x hx
      simp only [List.mem_singleton] at hx
      subst hx
      exact le_refl _
    | some p =>
      obtain ⟨m', rest'⟩ := p
      simp only [hrec] at hp
      obtain ⟨hperm', hmin'⟩ := ih hrec
      by_cases hc : Event.cmp e m' = Ordering.lt
      · rw [if_pos hc] at hp
        simp only [Option.some.injEq, Prod.mk.injEq] at hp
        obtain ⟨hm, hr⟩ := hp
        rw [← hm, ← hr]
        have hlt : m'.time < e.time := Event.cmp_eq_lt.mp hc
        constructor
        · exact (List.Perm.cons e hperm').trans (List.Perm.swap m' e rest')
        · intro x hx
          rcases List.mem_cons.mp hx with hx | hx
          · subst hx
            exact le_of_lt hlt
          · exact hmin' x hx
      · rw [if_neg hc] at hp
        simp only [Option.some.injEq, Prod.mk.injEq] at hp
        obtain ⟨hm, hr⟩ := hp
        rw [← hm, ← hr]
        have hle : e.time ≤ m'.time := Event.cmp_ne_lt.mp hc
        constructor
        · exact List.Perm.refl _
        · intro x hx
          rcases List.mem_cons.mp hx with hx | hx
          · subst hx
            exact le_refl _
          · exact le_trans hle (hmin' x hx)

/-- A successful pop removes exactly one element. -/
theorem heapPop_length {h : List Event} {m : Event} {rest : List Event}
    (hp : heapPop h = some (m, rest)) : h.length = rest.length + 1 := by
  have := (heapPop_spec hp).1.length_eq
  simpa using this

/-! ### The `Timeline.pop` specification -/

theorem Timeline.pop_of_empty {t : Timeline} (h : t.event_queue = []) :
    t.pop = (none, t) := by
  unfold Timeline.pop
  rw [heapPop_eq_none.mpr h]

theorem Timeline.pop_of_ne_empty {t : Timeline} (h : t.event_queue ≠ []) :
    ∃ e rest, t.pop = (some e, { now := e.time, event_queue := rest }) := by
  cases hh : heapPop t.event_queue with
  | none => exact absurd (heapPop_eq_none.mp hh) h
  | some p =>
    obtain ⟨m, rest⟩ := p
    refine ⟨m, rest, ?_⟩
    unfold Timeline.pop
    rw [hh]

theorem Timeline.pop_some_spec {t t' : Timeline} {e : Event}
    (hp : t.pop = (some e, t')) :
    t'.now = e.time ∧ e ∈ t.event_queue ∧ (∀ x ∈ t.event_queue, e.time ≤ x.time) ∧
      t.event_queue.Perm (e :: t'.event_queue) := by
  unfold Timeline.pop at hp
  cases hh : heapPop t.event_queue with
  | none =>
    rw [hh] at hp
    simp at hp
  | some p =>
    obtain ⟨m, rest⟩ := p
    rw [hh] at hp
    simp only [Prod.mk.injEq, Option.some.injEq] at hp
    obtain ⟨hm, ht⟩ := hp
    obtain ⟨hperm, hmin⟩ := heapPop_spec hh
    subst hm
    refine ⟨?_, ?_, hmin, ?_⟩
    · rw [← ht]
    · exact hperm.mem_iff.mpr (List.mem_cons_self _ _)
    · rw [← ht]
      exact hperm

theorem Timeline.pop_now_eq {t : Timeline} {e : Event} (hp : (t.pop).1 = some e) :
    ((t.pop).2).now = e.time := by
  unfold Timeline.pop at hp ⊢
  cases hh : heapPop t.event_queue with
  | none =>
    rw [hh] at hp
    simp at hp
  | some p =>
    obtain ⟨m, rest⟩ := p
    rw [hh] at hp
    have hm : m = e := by simpa using hp
    subst hm
    rfl

/-- C1: `pop()` removes and returns a pending event of minimum time,
advancing `now` to that event's time in the same operation; on the empty
queue it returns `none` and leaves the timeline (`now` included) unchanged. -/
theorem timeline_pop_min_spec (t : Timeline) :
    (t.event_queue = [] → t.pop = (none, t)) ∧
    (t.event_queue ≠ [] →
      ∃ e, (t.pop).1 = some e ∧ ((t.pop).2).now = e.time ∧
        e ∈ t.event_queue ∧ (∀ x ∈ t.event_queue, e.time ≤ x.time) ∧
        t.event_queue.Perm (e :: ((t.pop).2).event_queue)) := by
  constructor
  · exact Timeline.pop_of_empty
  · intro h
    obtain ⟨e, rest, hp⟩ := Timeline.pop_of_ne_empty h
    obtain ⟨h1, h2, h3, h4⟩ := Timeline.pop_some_spec hp
    refine ⟨e, ?_, ?_, h2, h3, ?_⟩
    · rw [hp]
    · rw [hp]
    · rw [hp]
      exact h4

/-- Witness for C1 at concrete inputs: the empty default timeline, and a
three-event timeline whose minimum-time event is `⟨1, 1⟩`. -/
theorem timeline_pop_min_spec_witness :
    Timeline.default.pop = (none, Timeline.default) ∧
    (∃ e, ((Timeline.mk 0 [⟨5, 0⟩, ⟨1, 1⟩, ⟨3, 2⟩]).pop).1 = some e ∧
      (((Timeline.mk 0 [⟨5, 0⟩, ⟨1, 1⟩, ⟨3, 2⟩]).pop).2).now = e.time ∧
      e ∈ (Timeline.mk 0 [⟨5, 0⟩, ⟨1, 1⟩, ⟨3, 2⟩]).event_queue ∧
      (∀ x ∈ (Timeline.mk 0 [⟨5, 0⟩, ⟨1, 1⟩, ⟨3, 2⟩]).event_queue, e.time ≤ x.time) ∧
      (Timeline.mk 0 [⟨5, 0⟩, ⟨1, 1⟩, ⟨3, 2⟩]).event_queue.Perm
        (e :: (((Timeline.mk 0 [⟨5, 0⟩, ⟨1, 1⟩, ⟨3, 2⟩]).pop).2).event_queue)) :=
  ⟨(timeline_pop_min_spec Timeline.default).1 rfl,
   (timeline_pop_min_spec (Timeline.mk 0 [⟨5, 0⟩, ⟨1, 1⟩, ⟨3, 2⟩])).2 (by decide)⟩

/-! ### Traces of push/pop operations and monotonicity of `now` -/

theorem Timeline.wf_iff {t : Timeline} :
    t.wf = true ↔ ∀ e ∈ t.event_queue, t.now ≤ e.time := by
  simp [Timeline.wf, List.all_eq_true]

theorem Timeline.wf_push {t : Timeline} {e : Event} (hwf : t.wf = true)
    (he : t.now ≤ e.time) : (t.push e).wf = true := by
  rw [Timeline.wf_iff] at hwf ⊢
  intro x hx
  simp only [Timeline.push, heapPush, List.mem_cons] at hx
  rcases hx with hx | hx
  · subst hx
    exact he
  · exact hwf x hx

theorem Timeline.wf_pop {t : Timeline} (hwf : t.wf = true) :
    t.now ≤ ((t.pop).2).now ∧ ((t.pop).2).wf = true := by
  unfold Timeline.pop
  cases hh : heapPop t.event_queue with
  | none => exact ⟨le_refl _, hwf⟩
  | some p =>
    obtain ⟨m, rest⟩ := p
    obtain ⟨hperm, hmin⟩ := heapPop_spec hh
    constructor
    · exact Timeline.wf_iff.mp hwf m (hperm.mem_iff.mpr (List.mem_cons_self _ _))
    · rw [Timeline.wf_iff]
      intro x hx
      exact hmin x (hperm.mem_iff.mpr (List.mem_cons_of_mem _ hx))

theorem statesTrace_cons_shape (ops : List TimelineOp) (t : Timeline) :
    ∃ tl, statesTrace t ops = t :: tl := by
  cases ops with
  | nil => exact ⟨[], rfl⟩
  | cons op ops => exact ⟨statesTrace (op.apply t) ops, rfl⟩

/-- Along any causal trace starting from a consistent timeline, the `now`
values are non-decreasing. -/
theorem causal_chain : ∀ (ops : List TimelineOp) (t : Timeline),
    t.wf = true → causalOps t ops = true →
    List.Chain' (fun a b : Time => a ≤ b) ((statesTrace t ops).map Timeline.now) := by
  intro ops
  induction ops with
  | nil =>
    intro t _ _
    simp [statesTrace]
  | cons op ops ih =>
    intro t hwf hc
    have hstep : t.now ≤ (op.apply t).now ∧ (op.apply t).wf = true ∧
        causalOps (op.apply t) ops = true := by
      cases op with
      | push e =>
        simp only [causalOps, Bool.and_eq_true, decide_eq_true_eq] at hc
        obtain ⟨he, hc'⟩ := hc
        refine ⟨?_, Timeline.wf_push hwf he, hc'⟩
        simp [TimelineOp.apply, Timeline.push]
      | pop =>
        simp only [causalOps] at hc
        obtain ⟨h1, h2⟩ := Timeline.wf_pop hwf
        exact ⟨h1, h2, hc⟩
    obtain ⟨hle, hwf', hc'⟩ := hstep
    obtain ⟨tl, htl⟩ := statesTrace_cons_shape ops (op.apply t)
    have hchain := ih (op.apply t) hwf' hc'
    simp only [statesTrace, List.map_cons]
    rw [List.chain'_cons']
    refine ⟨?_, hchain⟩
    intro b hb
    rw [htl] at hb
    simp only [List.map_cons, List.head?_cons, Option.mem_def, Option.some.injEq] at hb
    rw [← hb]
    exact hle

/-- C2 (amended): after every successful pop, `now` equals the popped
event's time (unconditionally); and for a trace in which every push is
causal (scheduled no earlier than the current `now`), the sequence of `now`
values across the whole trace is monotonically non-decreasing. -/
theorem timeline_trace_spec (t : Timeline) (ops : List TimelineOp)
    (hwf : t.wf = true) (hc : causalOps t ops = true) :
    (∀ (s : Timeline) (e : Event), (s.pop).1 = some e → ((s.pop).2).now = e.time) ∧
    List.Chain' (fun a b : Time => a ≤ b) ((statesTrace t ops).map Timeline.now) :=
  ⟨fun _ _ hp => Timeline.pop_now_eq hp, causal_chain ops t hwf hc⟩

/-- Witness for C2 (amended) on a concrete causal trace. -/
theorem timeline_trace_spec_witness :
    List.Chain' (fun a b : Time => a ≤ b)
      ((statesTrace Timeline.default
        [TimelineOp.push ⟨1, 0⟩, TimelineOp.pop, TimelineOp.push ⟨3, 1⟩,
         TimelineOp.pop]).map Timeline.now) :=
  (timeline_trace_spec Timeline.default
    [TimelineOp.push ⟨1, 0⟩, TimelineOp.pop, TimelineOp.push ⟨3, 1⟩, TimelineOp.pop]
    (by decide) (by decide)).2

/-- C2 counterexample: with no precondition on pushed times, `now` is not
monotone — push time 5, pop (now becomes 5), push time 1, pop (now becomes
1 < 5). -/
theorem timeline_trace_not_monotone :
    ¬ List.Chain' (fun a b : Time => a ≤ b)
      ((statesTrace Timeline.default
        [TimelineOp.push ⟨5, 0⟩, TimelineOp.pop, TimelineOp.push ⟨1, 1⟩,
         TimelineOp.pop]).map Timeline.now) := by
  intro hch
  have hlist : (statesTrace Timeline.default
      [TimelineOp.push ⟨5, 0⟩, TimelineOp.pop, TimelineOp.push ⟨1, 1⟩,
       TimelineOp.pop]).map Timeline.now = [0, 0, 5, 5, 1] := by
    decide
  rw [hlist] at hch
  have h51 : (5 : Time) ≤ 1 :=
    (List.chain'_cons.mp (List.chain'_cons.mp (List.chain'_cons.mp
      (List.chain'_cons.mp hch).2).2).2).1
  exact absurd h51 (by norm_num)

/-! ### Draining the queue returns every pushed event in time order -/

theorem Timeline.pushAll_spec : ∀ (es : List Event) (t : Timeline),
    (t.pushAll es).event_queue = es.reverse ++ t.event_queue ∧
    (t.pushAll es).now = t.now := by
  intro es
  induction es with
  | nil =>
    intro t
    simp [Timeline.pushAll]
  | cons e es ih =>
    intro t
    have h := ih (t.push e)
    simp only [Timeline.pushAll, List.foldl_cons] at h ⊢
    refine ⟨?_, ?_⟩
    · rw [h.1]
      simp [Timeline.push, heapPush]
    · rw [h.2]
      simp [Timeline.push]

theorem drainFuel_perm : ∀ (n : ℕ) (t : Timeline), t.event_queue.length ≤ n →
    (drainFuel n t).Perm t.event_queue := by
  intro n
  induction n with
  | zero =>
    intro t hlen
    have hq : t.event_queue = [] := List.eq_nil_of_length_eq_zero (Nat.le_zero.mp hlen)
    rw [hq]
    exact List.Perm.refl _
  | succ n ih =>
    intro t hlen
    cases hh : heapPop t.event_queue with
    | none =>
      have hq : t.event_queue = [] := heapPop_eq_none.mp hh
      have hpop : t.pop = (none, t) := Timeline.pop_of_empty hq
      simp [drainFuel, hpop, hq]
    | some p =>
      obtain ⟨e, rest⟩ := p
      have hpop : t.pop = (some e, { now := e.time, event_queue := rest }) := by
        unfold Timeline.pop
        rw [hh]
      obtain ⟨hperm, hmin⟩ := heapPop_spec hh
      have hlen' : rest.length ≤ n := by
        have := heapPop_length hh
        omega
      have ihp := ih { now := e.time, event_queue := rest } hlen'
      simp only [drainFuel, hpop]
      exact (List.Perm.cons e ihp).trans hperm.symm

theorem drainFuel_subset : ∀ (n : ℕ) (t : Timeline) (x : Event),
    x ∈ drainFuel n t → x ∈ t.event_queue := by
  intro n
  induction n with
  | zero =>
    intro t x hx
    simp [drainFuel] at hx
  | succ n ih =>
    intro t x hx
    cases hh : heapPop t.event_queue with
    | none =>
      have hpop : t.pop = (none, t) := Timeline.pop_of_empty (heapPop_eq_none.mp hh)
      simp [drainFuel, hpop] at hx
    | some p =>
      obtain ⟨e, rest⟩ := p
      have hpop : t.pop = (some e, { now := e.time, event_queue := rest }) := by
        unfold Timeline.pop
        rw [hh]
      obtain ⟨hperm, hmin⟩ := heapPop_spec hh
      simp only [drainFuel, hpop, List.mem_cons] at hx
      rcases hx with hx | hx
      · subst hx
        exact hperm.mem_iff.mpr (List.mem_cons_self _ _)
      · exact hperm.mem_iff.mpr (List.mem_cons_of_mem _ (ih _ x hx))

theorem drainFuel_sorted : ∀ (n : ℕ) (t : Timeline),
    List.Pairwise (fun a b : Event => a.time ≤ b.time) (drainFuel n t) := by
  intro n
  induction n with
  | zero =>
    intro t
    simp [drainFuel]
  | succ n ih =>
    intro t
    cases hh : heapPop t.event_queue with
    | none =>
      have hpop : t.pop = (none, t) := Timeline.pop_of_empty (heapPop_eq_none.mp hh)
      simp [drainFuel, hpop]
    | some p =>
      obtain ⟨e, rest⟩ := p
      have hpop : t.pop = (some e, { now := e.time, event_queue := rest }) := by
        unfold Timeline.pop
        rw [hh]
      obtain ⟨hperm, hmin⟩ := heapPop_spec hh
      simp only [drainFuel, hpop]
      refine List.Pairwise.cons ?_ (ih _)
      intro x hx
      have hxrest : x ∈ rest := drainFuel_subset n _ x hx
      exact hmin x (hperm.mem_iff.mpr (List.mem_cons_of_mem _ hxrest))

/-- C3: pushing a list of events onto a fresh timeline and then popping
until empty returns exactly the pushed events — a permutation, none lost,
none invented — in non-decreasing time order (so an event with a strictly
smaller time pops strictly earlier, and equal-time events all pop, in some
order). -/
theorem drain_pushAll_spec (es : List Event) :
    ((Timeline.default.pushAll es).drain).Perm es ∧
    List.Pairwise (fun a b : Event => a.time ≤ b.time)
      ((Timeline.default.pushAll es).drain) := by
  obtain ⟨hq, _⟩ := Timeline.pushAll_spec es Timeline.default
  have h2 : (Timeline.default.pushAll es).event_queue.Perm es := by
    rw [hq]
    show (es.reverse ++ []).Perm es
    rw [List.append_nil]
    exact List.reverse_perm es
  constructor
  · have hperm := drainFuel_perm (Timeline.default.pushAll es).event_queue.length
      (Timeline.default.pushAll es) (le_refl _)
    exact hperm.trans h2
  · exact drainFuel_sorted _ _

/-! ### The tick loop and the termination protocol -/

/-- C4: the loop inspects `ModelControl` after every full round: while it
reads `Running` it runs another round; the first time it reads any of
`Paused`, `Aborted` or `Finished` (here: after round `k + 1`) it stops at
the end of that round and never starts another — for every fuel bound
`n ≥ k + 1` the loop returns the state after exactly `k + 1` rounds, so a
terminal value set during any phase of a round is acted on at that round's
end, with no resume. -/
theorem model_run_loop_stops {σ : Type} (step : σ → σ) (ctrl : σ → ModelControl)
    (s : σ) (k n : ℕ)
    (hrun : ∀ i < k, ctrl (step^[i + 1] s) = ModelControl.Running)
    (hterm : ctrl (step^[k + 1] s) ≠ ModelControl.Running)
    (hn : k + 1 ≤ n) :
    modelRunLoop step ctrl n s = some (step^[k + 1] s, k + 1) := by
  induction k generalizing s n with
  | zero =>
    obtain ⟨m, rfl⟩ : ∃ m, n = m + 1 := ⟨n - 1, by omega⟩
    have h1 : step^[0 + 1] s = step s := by
      simp
    rw [h1] at hterm ⊢
    cases hc : ctrl (step s) with
    | Running => exact absurd hc hterm
    | Paused => simp [modelRunLoop, hc]
    | Aborted => simp [modelRunLoop, hc]
    | Finished => simp [modelRunLoop, hc]
  | succ k ih =>
    obtain ⟨m, rfl⟩ : ∃ m, n = m + 1 := ⟨n - 1, by omega⟩
    have hr0 : ctrl (step s) = ModelControl.Running := by
      have h := hrun 0 (Nat.succ_pos k)
      simpa using h
    have hrun' : ∀ i < k, ctrl (step^[i + 1] (step s)) = ModelControl.Running := by
      intro i hi
      rw [← Function.iterate_succ_apply]
      exact hrun (i + 1) (by omega)
    have hterm' : ctrl (step^[k + 1] (step s)) ≠ ModelControl.Running := by
      rw [← Function.iterate_succ_apply]
      exact hterm
    have ihr := ih (step s) m hrun' hterm' (by omega)
    have hunfold : modelRunLoop step ctrl (m + 1) s =
        (modelRunLoop step ctrl m (step s)).map (fun p => (p.1, p.2 + 1)) := by
      simp [modelRunLoop, hr0]
    rw [hunfold, ihr]
    simp only [Option.map_some']
    rw [← Function.iterate_succ_apply]

/-- Witness for C4: with state `ℕ`, `step = Nat.succ` and a controller that
reads `Finished` once the state reaches 2, the loop stops after exactly two
rounds even with fuel for five. -/
theorem model_run_loop_stops_witness :
    modelRunLoop Nat.succ
      (fun n => if 2 ≤ n then ModelControl.Finished else ModelControl.Running)
      5 0 = some (Nat.succ^[1 + 1] 0, 1 + 1) :=
  model_run_loop_stops Nat.succ
    (fun n => if 2 ≤ n then ModelControl.Finished else ModelControl.Running)
    0 1 5 (by decide) (by decide) (by decide)

/-! ### The Normal-phase drain system -/

/-- C5: `run_timeline_event` pops at most one event per tick.  On a
non-empty timeline it pops exactly one event — the queue length drops by
one — and appends that event's command to the substrate's deferred-command
queue (it does not run the command itself), leaving `ModelControl` alone;
on an empty timeline it runs and defers no command and sets
`ModelControl::Aborted`, leaving the timeline unchanged. -/
theorem run_timeline_event_spec (w : DrainWorld) :
    (w.timeline.event_queue = [] →
      run_timeline_event w =
        { timeline := w.timeline, model_control := ModelControl.Aborted,
          commands := w.commands }) ∧
    (w.timeline.event_queue ≠ [] →
      ∃ e, ((w.timeline).pop).1 = some e ∧
        run_timeline_event w =
          { timeline := ((w.timeline).pop).2,
            model_control := w.model_control,
            commands := w.commands ++ [e.command] } ∧
        ((run_timeline_event w).timeline).event_queue.length + 1 =
          (w.timeline).event_queue.length) := by
  constructor
  · intro h
    have hpop : (w.timeline).pop = (none, w.timeline) := Timeline.pop_of_empty h
    unfold run_timeline_event
    rw [hpop]
  · intro h
    obtain ⟨e, rest, hpop⟩ := Timeline.pop_of_ne_empty h
    have hlen := (Timeline.pop_some_spec hpop).2.2.2.length_eq
    refine ⟨e, ?_, ?_, ?_⟩
    · rw [hpop]
    · unfold run_timeline_event
      rw [hpop]
    · unfold run_timeline_event
      rw [hpop]
      simpa using hlen.symm

/-- Witness for C5: an empty drain tick aborts, a non-empty drain tick
defers exactly the popped event's command. -/
theorem run_timeline_event_spec_witness :
    run_timeline_event ⟨Timeline.default, ModelControl.Running, []⟩ =
      { timeline := Timeline.default, model_control := ModelControl.Aborted,
        commands := [] } ∧
    (∃ e, ((Timeline.mk 0 [⟨2, 7⟩]).pop).1 = some e ∧
      run_timeline_event ⟨Timeline.mk 0 [⟨2, 7⟩], ModelControl.Running, [9]⟩ =
        { timeline := ((Timeline.mk 0 [⟨2, 7⟩]).pop).2,
          model_control := ModelControl.Running,
          commands := [9] ++ [e.command] } ∧
      ((run_timeline_event
          ⟨Timeline.mk 0 [⟨2, 7⟩], ModelControl.Running, [9]⟩).timeline).event_queue.length + 1 =
        (Timeline.mk 0 [⟨2, 7⟩]).event_queue.length) :=
  ⟨(run_timeline_event_spec ⟨Timeline.default, ModelControl.Running, []⟩).1 rfl,
   (run_timeline_event_spec
      ⟨Timeline.mk 0 [⟨2, 7⟩], ModelControl.Running, [9]⟩).2 (by decide)⟩

/-! ### Which operations modify `now` -/

/-- C6 counterexample: `set_now` is a public `Timeline` operation other than
`pop` that modifies `now` — no pop is involved, yet `now` changes. -/
theorem set_now_modifies_now :
    ((Timeline.default.set_now 5).1).now ≠ Timeline.default.now := by
  decide

/-- C6 (amended): among the public `Timeline` operations, `push` never
modifies `now`, and `pop` on a non-empty queue sets `now` to exactly the
popped (minimum-time) event's time while on an empty queue it leaves `now`
unchanged; but `pop` is not the only mutator of `now` — the public
`set_now` sets it to an arbitrary caller-supplied value. -/
theorem timeline_now_mutation_spec (t : Timeline) (e : Event) (nt : Time) :
    (t.push e).now = t.now ∧
    ((t.set_now nt).1).now = nt ∧
    (t.event_queue = [] → ((t.pop).2).now = t.now) ∧
    (∀ e', (t.pop).1 = some e' → ((t.pop).2).now = e'.time ∧
      ∀ x ∈ t.event_queue, e'.time ≤ x.time) := by
  refine ⟨rfl, rfl, ?_, ?_⟩
  · intro h
    rw [Timeline.pop_of_empty h]
  · intro e' hp
    have hp' : t.pop = (some e', (t.pop).2) := by
      rw [← hp]
    exact ⟨Timeline.pop_now_eq hp, (Timeline.pop_some_spec hp').2.2.1⟩

/-- Witness for C6 (amended) at concrete inputs. -/
theorem timeline_now_mutation_spec_witness :
    ((Timeline.mk 3 []).push ⟨7, 0⟩).now = (Timeline.mk 3 []).now ∧
    (((Timeline.mk 3 []).set_now 9).1).now = 9 ∧
    (((Timeline.mk 3 []).pop).2).now = (Timeline.mk 3 []).now ∧
    ((((Timeline.mk 0 [⟨4, 5⟩]).pop).2).now = (Event.mk 4 5).time ∧
      ∀ x ∈ (Timeline.mk 0 [⟨4, 5⟩]).event_queue, (Event.mk 4 5).time ≤ x.time) :=
  ⟨(timeline_now_mutation_spec (Timeline.mk 3 []) ⟨7, 0⟩ 9).1,
   (timeline_now_mutation_spec (Timeline.mk 3 []) ⟨7, 0⟩ 9).2.1,
   (timeline_now_mutation_spec (Timeline.mk 3 []) ⟨7, 0⟩ 9).2.2.1 rfl,
   (timeline_now_mutation_spec (Timeline.mk 0 [⟨4, 5⟩]) ⟨7, 0⟩ 9).2.2.2
     ⟨4, 5⟩ (by decide)⟩

/-! ### Reporter initialization failure at composition time -/

/-- C7 counterexample: with the report file already existing and
`overwrite = false`, the composition-time module initialization
(`impl Module for Reporter`, which wraps `Reporter::initialize` in
`expect`) does not yield a typed error result — the `expect` panics,
modelled as `none`: the composition terminates without a result. -/
theorem reporter_initialize_with_world_panics :
    Reporter.initialize_with_world ⟨"incidence", none⟩
      (some ⟨"", "out", false⟩) (fun _ => true) ⟨"", ".", false⟩ = none := rfl

/-- C7 (amended): when the report file already exists and `overwrite` is
false, `Reporter::initialize` does return the typed error
`IxaError::IoError(AlreadyExists)` to its caller; but at composition time
`initialize_with_world` unwraps that result with
`expect("Failed to initialize Reporter")`, so the failure panics — no value
of the composition-time return type is produced — instead of being returned
as a typed result to the composition boundary. -/
theorem reporter_init_error_spec (r : Reporter) (cfg : ReporterConfiguration)
    (fsExists : String → Bool) (cfg0 : ReporterConfiguration)
    (hex : fsExists (ReporterConfiguration.generate_filename cfg r.short_name) = true)
    (hov : cfg.overwrite = false) :
    r.initialize cfg fsExists =
      Except.error (IxaError.IoError IoErrorKind.AlreadyExists) ∧
    Reporter.initialize_with_world r (some cfg) fsExists cfg0 = none := by
  have hinit : r.initialize cfg fsExists =
      Except.error (IxaError.IoError IoErrorKind.AlreadyExists) := by
    unfold Reporter.initialize
    simp only [hex, hov]
    simp
  refine ⟨hinit, ?_⟩
  unfold Reporter.initialize_with_world
  simp only [Option.getD_some]
  rw [hinit]

/-- Witness for C7 (amended) at concrete inputs: file exists, overwrite off. -/
theorem reporter_init_error_spec_witness :
    Reporter.initialize (Reporter.mk "incidence" none) ⟨"", "out", false⟩
      (fun _ => true) =
      Except.error (IxaError.IoError IoErrorKind.AlreadyExists) ∧
    Reporter.initialize_with_world (Reporter.mk "incidence" none)
      (some ⟨"", "out", false⟩) (fun _ => true) ⟨"", ".", false⟩ = none :=
  reporter_init_error_spec (Reporter.mk "incidence" none) ⟨"", "out", false⟩
    (fun _ => true) ⟨"", ".", false⟩ rfl rfl

/-! ### Event equality and ordering are determined by time alone -/

/-- C9: two events compare equal exactly when their `time` fields are equal,
regardless of command payloads; the `Ord` comparison used by the queue
factors through `time` alone (replacing payloads never changes it), and it
returns `eq` exactly on equal-time events. -/
theorem event_eq_and_ord_by_time (a b a' b' : Event) :
    (Event.beq a b = true ↔ a.time = b.time) ∧
    (a.time = a'.time → b.time = b'.time → Event.cmp a b = Event.cmp a' b') ∧
    (Event.cmp a b = Ordering.eq ↔ a.time = b.time) := by
  refine ⟨?_, ?_, ?_⟩
  · simp [Event.beq]
  · intro h1 h2
    unfold Event.cmp
    rw [h1, h2]
  · unfold Event.cmp
    rw [Time.cmp_eq_iff]
    exact eq_comm

/-- Witness for C9: equal-time events with different payloads are equal,
and replacing both payloads does not change the comparison. -/
theorem event_eq_and_ord_by_time_witness :
    Event.beq ⟨1, 0⟩ ⟨1, 7⟩ = true ∧
    Event.cmp ⟨1, 0⟩ ⟨2, 5⟩ = Event.cmp ⟨1, 9⟩ ⟨2, 8⟩ :=
  ⟨(event_eq_and_ord_by_time ⟨1, 0⟩ ⟨1, 7⟩ ⟨1, 9⟩ ⟨2, 8⟩).1.mpr rfl,
   (event_eq_and_ord_by_time ⟨1, 0⟩ ⟨2, 5⟩ ⟨1, 9⟩ ⟨2, 8⟩).2.1 rfl rfl⟩

/-! ### Timeline module registration installs a fresh default timeline -/

/-- C10: `Timeline`'s `Module` implementation never installs the receiver:
whatever timeline it is called on (events pushed beforehand included), it
installs `Timeline::default()` — `now = 0`, no pending events — as the
world's `Timeline` resource (so the result is independent of the receiver),
and registers the single drain system in the `Normal` phase. -/
theorem timeline_initialize_discards_receiver (t t' : Timeline) (w : WorldModel) :
    (Timeline.initialize_with_world t w).1.timeline = some Timeline.default ∧
    Timeline.initialize_with_world t w = Timeline.initialize_with_world t' w ∧
    Timeline.default.now = 0 ∧
    Timeline.default.event_queue = [] ∧
    (Timeline.initialize_with_world t w).2 = some { phase := ExecutionPhase.Normal } :=
  ⟨rfl, rfl, rfl, rfl, rfl⟩

end EcsSim
